import Mathlib

/-!
Verification of the tower-assessment core in
`src/transmission_simple_assessment_v2.py`.

The Python source is shallowly embedded below.  Floating-point arithmetic
is modelled by real arithmetic; Python `math.floor` / `math.ceil` by
`Int.floor` / `Int.ceil`; Python `int(...)` (truncation toward zero) by
`pyInt`; `range(-4000, 4001, step)` by `offsets step`.  The three result
triples of `compute_sums` are `(floorSum, ceilSum, decimalSum)` for the
bands `≥ 3°`, `≥ 2.1°` and `≥ 0.1°`, in the return order of the source.
-/

open Real

/-- The triple-of-triples result type of `compute_sums`:
`((f3, c3, d3), (f21, c21, d21), (fall, call, dall))`. -/
abbrev SumsT := (ℤ × ℤ × ℝ) × (ℤ × ℤ × ℝ) × (ℤ × ℤ × ℝ)

/-- Function classify_magnitude from the source (lines 6-24): classify the summed
value by fixed breakpoints. -/
def classify_magnitude (value : ℤ) : String :=
  if value ≤ 7 then "Very low"
  else if value ≤ 14 then "Low"
  else if value ≤ 25 then "Moderate"
  else if value ≤ 36 then "High"
  else "Very high"

/-- Python `int(x)`: truncation toward zero. -/
noncomputable def pyInt (x : ℝ) : ℤ :=
  if 0 ≤ x then ⌊x⌋ else -⌊-x⌋

/-- The sampling step (source lines 65-67):
`step = int(span) if span == int(span) else int(span+0.9999); if step<1: step=1`. -/
noncomputable def stepOf (span : ℝ) : ℤ :=
  let s := if span = (pyInt span : ℝ) then pyInt span else pyInt (span + 0.9999)
  if s < 1 then 1 else s

/-- Python `range(-4000, 4001, step)` for `step ≥ 1` (source line 69):
the integers `-4000 + step * k` for `k = 0, …, ⌊8000/step⌋`. -/
def offsets (step : ℤ) : List ℤ :=
  (List.range (8000 / step.toNat + 1)).map (fun (k : ℕ) => -4000 + step * (k : ℤ))

/-- Computation of `raw_angle = math.degrees(math.atan(h / r))` with `r = math.hypot(d, x)`
(source lines 70-74). -/
noncomputable def rawAngleAt (h d : ℝ) (x : ℤ) : ℝ :=
  Real.arctan (h / Real.sqrt (d ^ 2 + (x : ℝ) ^ 2)) * 180 / Real.pi

/-- The per-offset contribution of the loop body of `compute_sums`
(source lines 69-93): skip when `r ≤ 0` or `raw_angle < 0.1`, otherwise
add `(floor, ceil, raw)` to every band whose threshold the angle meets. -/
noncomputable def contrib (h d : ℝ) (x : ℤ) : SumsT :=
  if Real.sqrt (d ^ 2 + (x : ℝ) ^ 2) ≤ 0 then 0
  else if rawAngleAt h d x < 0.1 then 0
  else
    ((if 3.0 ≤ rawAngleAt h d x then
        (⌊rawAngleAt h d x⌋, ⌈rawAngleAt h d x⌉, rawAngleAt h d x) else 0),
     (if 2.1 ≤ rawAngleAt h d x then
        (⌊rawAngleAt h d x⌋, ⌈rawAngleAt h d x⌉, rawAngleAt h d x) else 0),
     (⌊rawAngleAt h d x⌋, ⌈rawAngleAt h d x⌉, rawAngleAt h d x))

/-- Function compute_sums from the source (lines 26-97). -/
noncomputable def compute_sums (tower_height_m span_between_towers_m tower_angle_deg : ℝ) :
    SumsT :=
  let angle_radians := tower_angle_deg * Real.pi / 180
  if |Real.tan angle_radians| < 1e-12 then 0
  else
    let d := tower_height_m / Real.tan angle_radians
    ((offsets (stepOf span_between_towers_m)).map (contrib tower_height_m d)).sum

/-- Bar colors used by `visualize_towers` (source lines 144-150). -/
inductive TColor
  | red
  | orange
  | blue
deriving DecidableEq

/-- The color branch of `visualize_towers`. -/
noncomputable def towerColor (raw : ℝ) : TColor :=
  if 3.0 ≤ raw then .red else if 2.1 ≤ raw then .orange else .blue

/-- The body of the `visualize_towers` loop (source lines 128-153): the
render point `(phi, top_deg, color)` for a retained offset, `none` for a
skipped one. -/
noncomputable def towerPoint (h d : ℝ) (x : ℤ) : Option (ℝ × ℝ × TColor) :=
  if Real.sqrt (d ^ 2 + (x : ℝ) ^ 2) ≤ 0 then none
  else if rawAngleAt h d x < 0.1 then none
  else
    let phi : ℝ :=
      if x = 0 then 95.0
      else
        max 0 (min 180
          (if 0 < x then 95 + Real.arctan (|(x : ℝ)| / d) * 180 / Real.pi
           else 95 - Real.arctan (|(x : ℝ)| / d) * 180 / Real.pi))
    some (phi, min (rawAngleAt h d x) 40.0, towerColor (rawAngleAt h d x))

/-- The `towers_data` list built by `visualize_towers` (source lines
113-153); `none` models the early `return None` on degenerate geometry. -/
noncomputable def towers_data (tower_height_m span_between_towers_m tower_angle_deg : ℝ) :
    Option (List (ℝ × ℝ × TColor)) :=
  let angle_radians := tower_angle_deg * Real.pi / 180
  if |Real.tan angle_radians| < 1e-12 then none
  else
    let d := tower_height_m / Real.tan angle_radians
    some ((offsets (stepOf span_between_towers_m)).filterMap
      (towerPoint tower_height_m d))

/-- The app distance branch (source lines 224-231): the angle actually
used; a non-positive distance falls back to the default angle `5.0`. -/
noncomputable def used_angle_of (tower_height distance_used : ℝ) : ℝ :=
  if 0 < distance_used then Real.arctan (tower_height / distance_used) * 180 / Real.pi
  else 5.0

/-- The app distance branch (source lines 224-231): the distance kept for
display; a non-positive distance is replaced by the default `500.0`. -/
noncomputable def distance_used_of (distance_used : ℝ) : ℝ :=
  if 0 < distance_used then distance_used else 500.0

/-- Assignment `classification = classify_magnitude(c3)` (source line 246), where `c3`
is the ceil-sum of the `≥ 3°` band. -/
noncomputable def classification_of (h s θ : ℝ) : String :=
  classify_magnitude (compute_sums h s θ).1.2.1

/-- Assignment `triggers_intermediate = (c3 >= 16)` (source line 247). -/
noncomputable def triggers_intermediate (h s θ : ℝ) : Bool :=
  decide (16 ≤ (compute_sums h s θ).1.2.1)

/-- Claim C5: `classify_magnitude` maps integers by the fixed breakpoints
`≤ 7 ↦ "Very low"`, `8..14 ↦ "Low"`, `15..25 ↦ "Moderate"`,
`26..36 ↦ "High"`, `≥ 37 ↦ "Very high"`, with no gaps and no overlaps, and
with the exact boundary behavior `classify(7) = "Very low"`, …,
`classify(37) = "Very high"`. -/
theorem classify_magnitude_breakpoints : ∀ value : ℤ,
    (classify_magnitude value = "Very low" ↔ value ≤ 7) ∧
    (classify_magnitude value = "Low" ↔ 8 ≤ value ∧ value ≤ 14) ∧
    (classify_magnitude value = "Moderate" ↔ 15 ≤ value ∧ value ≤ 25) ∧
    (classify_magnitude value = "High" ↔ 26 ≤ value ∧ value ≤ 36) ∧
    (classify_magnitude value = "Very high" ↔ 37 ≤ value) ∧
    classify_magnitude 7 = "Very low" ∧ classify_magnitude 8 = "Low" ∧
    classify_magnitude 14 = "Low" ∧ classify_magnitude 15 = "Moderate" ∧
    classify_magnitude 25 = "Moderate" ∧ classify_magnitude 26 = "High" ∧
    classify_magnitude 36 = "High" ∧ classify_magnitude 37 = "Very high" := by
  intro value
  refine ⟨?_, ?_, ?_, ?_, ?_, by decide, by decide, by decide, by decide,
    by decide, by decide, by decide, by decide⟩ <;>
    · unfold classify_magnitude
      split_ifs <;> simp <;> omega

/-- Claim C10: The intermediate-assessment trigger fires iff the ceil-sum of
the `≥ 3°` band is at least `16` (the cutoff is `16`, compared
inclusively), and the classification label is computed from that same
ceil-sum. -/
theorem trigger_cutoff : ∀ h s θ : ℝ,
    (triggers_intermediate h s θ = true ↔ 16 ≤ (compute_sums h s θ).1.2.1) ∧
    classification_of h s θ = classify_magnitude (compute_sums h s θ).1.2.1 := by
  intro h s θ
  exact ⟨by simp [triggers_intermediate], rfl⟩

/-- Claim C6, counterexample: With a supplied distance of `-1` (an invalid
input), the app does not surface any error: it silently substitutes the
default angle `5.0` and the default distance `500.0`. -/
theorem invalid_distance_silently_defaulted :
    used_angle_of 50 (-1) = 5 ∧ distance_used_of (-1) = 500 := by
  constructor <;>
    · simp only [used_angle_of, distance_used_of]
      rw [if_neg (by norm_num)]
      norm_num

/-- Claim C6, amended: For every non-positive supplied distance, the code
performs no input validation and surfaces no error: it silently substitutes
the default angle `5.0°` and the default distance `500.0` m. -/
theorem fallback_defaults (h dist : ℝ) (hd : dist ≤ 0) :
    used_angle_of h dist = 5 ∧ distance_used_of dist = 500 := by
  constructor <;>
    · simp only [used_angle_of, distance_used_of]
      rw [if_neg (not_lt.mpr hd)]
      norm_num

/-- Witness for `fallback_defaults` at the concrete invalid distance `0`. -/
theorem fallback_defaults_witness :
    (0 : ℝ) ≤ 0 ∧ (used_angle_of 50 0 = 5 ∧ distance_used_of 0 = 500) :=
  ⟨le_refl 0, fallback_defaults 50 0 (le_refl 0)⟩

lemma mem_offsets {step x : ℤ} :
    x ∈ offsets step ↔ ∃ k : ℕ, k < 8000 / step.toNat + 1 ∧ x = -4000 + step * k := by
  constructor
  · intro hx
    obtain ⟨k, hk, hkx⟩ := List.mem_map.mp hx
    exact ⟨k, List.mem_range.mp hk, hkx.symm⟩
  · rintro ⟨k, hk, hkx⟩
    exact List.mem_map.mpr ⟨k, List.mem_range.mpr hk, hkx.symm⟩

lemma pyInt_of_nonneg {x : ℝ} (hx : 0 ≤ x) : pyInt x = ⌊x⌋ := if_pos hx

lemma one_le_stepOf (s : ℝ) : 1 ≤ stepOf s := by
  unfold stepOf
  dsimp only
  split_ifs <;> omega

lemma stepOf_intCast {n : ℤ} (hn : 1 ≤ n) : stepOf (n : ℝ) = n := by
  have h0 : (0 : ℝ) ≤ (n : ℝ) := by exact_mod_cast (show (0 : ℤ) ≤ n by omega)
  have h1 : pyInt (n : ℝ) = n := by rw [pyInt_of_nonneg h0, Int.floor_intCast]
  unfold stepOf
  dsimp only
  rw [h1, if_pos rfl, if_neg (not_lt.mpr hn)]

lemma stepOf_three : stepOf 3 = 3 := by
  have : ((3 : ℤ) : ℝ) = (3 : ℝ) := by norm_num
  rw [← this, stepOf_intCast (by norm_num)]

lemma stepOf_hundred : stepOf 100 = 100 := by
  have : ((100 : ℤ) : ℝ) = (100 : ℝ) := by norm_num
  rw [← this, stepOf_intCast (by norm_num)]

/-- Claim C2, counterexample: With `height = 50 > 0`, `span = 3 > 0` and
`angle = 5° ∈ (0°, 90°)`, the central offset `x = 0` is never sampled:
the step is `3` and `range(-4000, 4001, 3)` never hits `0` because `3`
does not divide `4000`, so no observation is pinned to the input angle. -/
theorem central_offset_not_sampled :
    stepOf 3 = 3 ∧ (0 : ℤ) ∉ offsets (stepOf 3) := by
  refine ⟨stepOf_three, ?_⟩
  rw [stepOf_three]
  intro hmem
  rw [mem_offsets] at hmem
  obtain ⟨k, hk, he⟩ := hmem
  omega

/-- Claim C2, amended: For every `height > 0`, `span > 0` with sampling step
dividing `4000` (as for the default span `100`), and
`referenceAngleDegrees ∈ (0°, 90°)`, the offset `x = 0` is sampled and its
`rawAngle` equals `referenceAngleDegrees` exactly. -/
theorem central_observation_pinned (h s θ : ℝ) (hh : 0 < h) (hθ0 : 0 < θ)
    (hθ90 : θ < 90) (hstep : stepOf s ∣ 4000) :
    (0 : ℤ) ∈ offsets (stepOf s) ∧
    rawAngleAt h (h / Real.tan (θ * Real.pi / 180)) 0 = θ := by
  have ht1 : 1 ≤ stepOf s := one_le_stepOf s
  constructor
  · obtain ⟨c, hc⟩ := hstep
    have hc0 : 0 < c := by nlinarith
    have e1 : ((stepOf s).toNat : ℤ) = stepOf s := Int.toNat_of_nonneg (by omega)
    have e2 : (c.toNat : ℤ) = c := Int.toNat_of_nonneg hc0.le
    have hmul : (stepOf s).toNat * c.toNat = 4000 := by
      have : (((stepOf s).toNat * c.toNat : ℕ) : ℤ) = 4000 := by
        push_cast
        rw [e1, e2]
        exact hc.symm
      exact_mod_cast this
    rw [mem_offsets]
    refine ⟨c.toNat, ?_, ?_⟩
    · have hle : c.toNat ≤ 8000 / (stepOf s).toNat := by
        rw [Nat.le_div_iff_mul_le (by omega), Nat.mul_comm]
        omega
      omega
    · rw [e2]
      linear_combination hc
  · have hpi := Real.pi_pos
    have hA0 : 0 < θ * Real.pi / 180 := div_pos (mul_pos hθ0 hpi) (by norm_num)
    have hA2 : θ * Real.pi / 180 < Real.pi / 2 := by
      have h1 : θ * Real.pi < 90 * Real.pi := mul_lt_mul_of_pos_right hθ90 hpi
      have h2 : (90 : ℝ) * Real.pi / 180 = Real.pi / 2 := by ring
      calc θ * Real.pi / 180 < 90 * Real.pi / 180 := by linarith
        _ = Real.pi / 2 := h2
    have htan : 0 < Real.tan (θ * Real.pi / 180) :=
      Real.tan_pos_of_pos_of_lt_pi_div_two hA0 hA2
    have hd : 0 < h / Real.tan (θ * Real.pi / 180) := div_pos hh htan
    unfold rawAngleAt
    rw [show ((0 : ℤ) : ℝ) = 0 by norm_num]
    rw [show (h / Real.tan (θ * Real.pi / 180)) ^ 2 + (0 : ℝ) ^ 2
        = (h / Real.tan (θ * Real.pi / 180)) ^ 2 by ring]
    rw [Real.sqrt_sq hd.le]
    rw [show h / (h / Real.tan (θ * Real.pi / 180)) = Real.tan (θ * Real.pi / 180) by
      field_simp]
    rw [Real.arctan_tan (by linarith) hA2]
    field_simp

/-- Witness for `central_observation_pinned` at the defaults
`height = 50`, `span = 100`, `angle = 45°`. -/
theorem central_observation_pinned_witness :
    ((0 : ℝ) < 50 ∧ (0 : ℝ) < 45 ∧ (45 : ℝ) < 90 ∧ stepOf 100 ∣ 4000) ∧
    ((0 : ℤ) ∈ offsets (stepOf 100) ∧
     rawAngleAt 50 (50 / Real.tan (45 * Real.pi / 180)) 0 = 45) := by
  have hstep : stepOf 100 ∣ 4000 := by
    rw [stepOf_hundred]
    decide
  exact ⟨⟨by norm_num, by norm_num, by norm_num, hstep⟩,
    central_observation_pinned 50 100 45 (by norm_num) (by norm_num) (by norm_num) hstep⟩

/-- Claim C3, counterexample: With `span = 3` the step is `3`, the offset
`-4000` is sampled but its mirror `4000` is not: the sampled offsets are
not symmetric about zero. -/
theorem offsets_not_symmetric :
    stepOf 3 = 3 ∧ (-4000 : ℤ) ∈ offsets (stepOf 3) ∧
    (4000 : ℤ) ∉ offsets (stepOf 3) := by
  refine ⟨stepOf_three, ?_, ?_⟩ <;> rw [stepOf_three]
  · rw [mem_offsets]
    exact ⟨0, by norm_num, by norm_num⟩
  · intro hmem
    rw [mem_offsets] at hmem
    obtain ⟨k, hk, he⟩ := hmem
    omega

lemma rawAngleAt_neg (h d : ℝ) (x : ℤ) : rawAngleAt h d (-x) = rawAngleAt h d x := by
  unfold rawAngleAt
  rw [show ((-x : ℤ) : ℝ) ^ 2 = ((x : ℤ) : ℝ) ^ 2 by push_cast; ring]

lemma contrib_neg (h d : ℝ) (x : ℤ) : contrib h d (-x) = contrib h d x := by
  unfold contrib
  rw [show ((-x : ℤ) : ℝ) ^ 2 = ((x : ℤ) : ℝ) ^ 2 by push_cast; ring,
    rawAngleAt_neg]

/-- Claim C3, amended: For fixed geometry whose sampling step divides `8000`
(as for the default span `100`), the sampled offsets are symmetric about
zero; `rawAngle` is an even function of the offset in every case, so the
aggregate floor/ceil/decimal sums are invariant under reflection of the
window (negating every sampled offset). -/
theorem window_reflection_invariance (h d s : ℝ) (hstep : stepOf s ∣ 8000) :
    (∀ x : ℤ, x ∈ offsets (stepOf s) ↔ -x ∈ offsets (stepOf s)) ∧
    (∀ x : ℤ, rawAngleAt h d (-x) = rawAngleAt h d x) ∧
    (((offsets (stepOf s)).map (fun x => -x)).map (contrib h d)).sum =
      ((offsets (stepOf s)).map (contrib h d)).sum := by
  have ht1 : 1 ≤ stepOf s := one_le_stepOf s
  obtain ⟨c, hc⟩ := hstep
  have hc0 : 0 < c := by nlinarith
  have e1 : ((stepOf s).toNat : ℤ) = stepOf s := Int.toNat_of_nonneg (by omega)
  have e2 : (c.toNat : ℤ) = c := Int.toNat_of_nonneg hc0.le
  have hmul : (stepOf s).toNat * c.toNat = 8000 := by
    have : (((stepOf s).toNat * c.toNat : ℕ) : ℤ) = 8000 := by
      push_cast
      rw [e1, e2]
      exact hc.symm
    exact_mod_cast this
  have hM : 8000 / (stepOf s).toNat = c.toNat :=
    Nat.div_eq_of_eq_mul_left (by omega) (by rw [Nat.mul_comm]; omega)
  have key : ∀ x : ℤ, x ∈ offsets (stepOf s) → -x ∈ offsets (stepOf s) := by
    intro x hx
    rw [mem_offsets] at hx ⊢
    obtain ⟨k, hk, rfl⟩ := hx
    rw [hM] at hk ⊢
    refine ⟨c.toNat - k, by omega, ?_⟩
    have hkc : (k : ℤ) ≤ c := by omega
    rw [Nat.cast_sub (by omega), e2]
    linear_combination hc
  refine ⟨fun x => ⟨key x, fun hx => ?_⟩, rawAngleAt_neg h d, ?_⟩
  · have := key _ hx
    rwa [neg_neg] at this
  · rw [List.map_map]
    congr 1
    apply List.map_congr_left
    intro x _
    exact contrib_neg h d x

/-- Witness for `window_reflection_invariance` at the default span `100`. -/
theorem window_reflection_invariance_witness :
    stepOf 100 ∣ 8000 ∧
    ((∀ x : ℤ, x ∈ offsets (stepOf 100) ↔ -x ∈ offsets (stepOf 100)) ∧
     (∀ x : ℤ, rawAngleAt 50 50 (-x) = rawAngleAt 50 50 x) ∧
     (((offsets (stepOf 100)).map (fun x => -x)).map (contrib 50 50)).sum =
       ((offsets (stepOf 100)).map (contrib 50 50)).sum) := by
  have hstep : stepOf 100 ∣ 8000 := by
    rw [stepOf_hundred]
    decide
  exact ⟨hstep, window_reflection_invariance 50 50 100 hstep⟩


lemma list_sum_apply {M : Type} [AddCommMonoid M] (f : SumsT → M)
    (hadd : ∀ a b : SumsT, f (a + b) = f a + f b) (h0 : f 0 = 0) :
    ∀ l : List SumsT, f l.sum = (l.map f).sum := by
  intro l
  induction l with
  | nil => simpa using h0
  | cons x xs ih => simp [List.sum_cons, hadd, ih]

lemma contrib_cases (h d : ℝ) (x : ℤ) :
    contrib h d x = 0 ∨
    (0.1 ≤ rawAngleAt h d x ∧
     contrib h d x =
       ((if 3.0 ≤ rawAngleAt h d x then
           (⌊rawAngleAt h d x⌋, ⌈rawAngleAt h d x⌉, rawAngleAt h d x) else 0),
        (if 2.1 ≤ rawAngleAt h d x then
           (⌊rawAngleAt h d x⌋, ⌈rawAngleAt h d x⌉, rawAngleAt h d x) else 0),
        (⌊rawAngleAt h d x⌋, ⌈rawAngleAt h d x⌉, rawAngleAt h d x))) := by
  by_cases h1 : Real.sqrt (d ^ 2 + (x : ℝ) ^ 2) ≤ 0
  · left
    unfold contrib
    rw [if_pos h1]
  · by_cases h2 : rawAngleAt h d x < 0.1
    · left
      unfold contrib
      rw [if_neg h1, if_pos h2]
    · right
      refine ⟨by linarith, ?_⟩
      unfold contrib
      rw [if_neg h1, if_neg h2]

lemma contrib_nest (h d : ℝ) (x : ℤ) :
    (contrib h d x).1.1 ≤ (contrib h d x).2.1.1 ∧
    (contrib h d x).1.2.1 ≤ (contrib h d x).2.1.2.1 ∧
    (contrib h d x).1.2.2 ≤ (contrib h d x).2.1.2.2 ∧
    (contrib h d x).2.1.1 ≤ (contrib h d x).2.2.1 ∧
    (contrib h d x).2.1.2.1 ≤ (contrib h d x).2.2.2.1 ∧
    (contrib h d x).2.1.2.2 ≤ (contrib h d x).2.2.2.2 := by
  rcases contrib_cases h d x with hc | ⟨hvis, hc⟩
  · rw [hc]
    simp
  · rw [hc]
    have h0 : (0 : ℝ) ≤ rawAngleAt h d x := by linarith
    have hf : 0 ≤ ⌊rawAngleAt h d x⌋ := Int.floor_nonneg.mpr h0
    have hcl : 0 ≤ ⌈rawAngleAt h d x⌉ := Int.ceil_nonneg h0
    by_cases h3 : (3.0 : ℝ) ≤ rawAngleAt h d x
    · rw [if_pos h3, if_pos (show (2.1 : ℝ) ≤ rawAngleAt h d x by linarith)]
      simp
    · rw [if_neg h3]
      by_cases h21 : (2.1 : ℝ) ≤ rawAngleAt h d x
      · rw [if_pos h21]
        exact ⟨hf, hcl, h0, le_refl _, le_refl _, le_refl _⟩
      · rw [if_neg h21]
        exact ⟨le_refl _, le_refl _, le_refl _, hf, hcl, h0⟩

lemma sums_nest (h d : ℝ) (l : List ℤ) :
    ((l.map (contrib h d)).sum).1.1 ≤ ((l.map (contrib h d)).sum).2.1.1 ∧
    ((l.map (contrib h d)).sum).2.1.1 ≤ ((l.map (contrib h d)).sum).2.2.1 ∧
    ((l.map (contrib h d)).sum).1.2.1 ≤ ((l.map (contrib h d)).sum).2.1.2.1 ∧
    ((l.map (contrib h d)).sum).2.1.2.1 ≤ ((l.map (contrib h d)).sum).2.2.2.1 ∧
    ((l.map (contrib h d)).sum).1.2.2 ≤ ((l.map (contrib h d)).sum).2.1.2.2 ∧
    ((l.map (contrib h d)).sum).2.1.2.2 ≤ ((l.map (contrib h d)).sum).2.2.2.2 := by
  have e11 := list_sum_apply (fun t => t.1.1) (fun a b => rfl) rfl (l.map (contrib h d))
  have e12 := list_sum_apply (fun t => t.1.2.1) (fun a b => rfl) rfl (l.map (contrib h d))
  have e13 := list_sum_apply (fun t => t.1.2.2) (fun a b => rfl) rfl (l.map (contrib h d))
  have e21 := list_sum_apply (fun t => t.2.1.1) (fun a b => rfl) rfl (l.map (contrib h d))
  have e22 := list_sum_apply (fun t => t.2.1.2.1) (fun a b => rfl) rfl (l.map (contrib h d))
  have e23 := list_sum_apply (fun t => t.2.1.2.2) (fun a b => rfl) rfl (l.map (contrib h d))
  have e31 := list_sum_apply (fun t => t.2.2.1) (fun a b => rfl) rfl (l.map (contrib h d))
  have e32 := list_sum_apply (fun t => t.2.2.2.1) (fun a b => rfl) rfl (l.map (contrib h d))
  have e33 := list_sum_apply (fun t => t.2.2.2.2) (fun a b => rfl) rfl (l.map (contrib h d))
  simp only at e11 e12 e13 e21 e22 e23 e31 e32 e33
  refine ⟨?_, ?_, ?_, ?_, ?_, ?_⟩
  · rw [e11, e21, List.map_map, List.map_map]
    exact List.sum_le_sum fun i _ => (contrib_nest h d i).1
  · rw [e21, e31, List.map_map, List.map_map]
    exact List.sum_le_sum fun i _ => (contrib_nest h d i).2.2.2.1
  · rw [e12, e22, List.map_map, List.map_map]
    exact List.sum_le_sum fun i _ => (contrib_nest h d i).2.1
  · rw [e22, e32, List.map_map, List.map_map]
    exact List.sum_le_sum fun i _ => (contrib_nest h d i).2.2.2.2.1
  · rw [e13, e23, List.map_map, List.map_map]
    exact List.sum_le_sum fun i _ => (contrib_nest h d i).2.2.1
  · rw [e23, e33, List.map_map, List.map_map]
    exact List.sum_le_sum fun i _ => (contrib_nest h d i).2.2.2.2.2

/-- Claim C4: Band membership nests cumulatively: an observation counted in
the `≥ 3°` band is counted in the `≥ 2.1°` band, and one counted in the
`≥ 2.1°` band is counted in the `≥ 0.1°` band; consequently, for every
input, each floor/ceil/decimal sum of the `≥ 3°` band is `≤` the
corresponding `≥ 2.1°` sum, which is `≤` the corresponding `≥ 0.1°` sum. -/
theorem band_nesting (h s θ d : ℝ) :
    {x : ℤ | (contrib h d x).1 ≠ 0} ⊆ {x : ℤ | (contrib h d x).2.1 ≠ 0} ∧
    {x : ℤ | (contrib h d x).2.1 ≠ 0} ⊆ {x : ℤ | (contrib h d x).2.2 ≠ 0} ∧
    (compute_sums h s θ).1.1 ≤ (compute_sums h s θ).2.1.1 ∧
    (compute_sums h s θ).2.1.1 ≤ (compute_sums h s θ).2.2.1 ∧
    (compute_sums h s θ).1.2.1 ≤ (compute_sums h s θ).2.1.2.1 ∧
    (compute_sums h s θ).2.1.2.1 ≤ (compute_sums h s θ).2.2.2.1 ∧
    (compute_sums h s θ).1.2.2 ≤ (compute_sums h s θ).2.1.2.2 ∧
    (compute_sums h s θ).2.1.2.2 ≤ (compute_sums h s θ).2.2.2.2 := by
  refine ⟨?_, ?_, ?_⟩
  · intro x hx
    simp only [Set.mem_setOf_eq] at hx ⊢
    rcases contrib_cases h d x with hc | ⟨hvis, hc⟩
    · rw [hc] at hx
      exact absurd rfl hx
    · rw [hc] at hx ⊢
      replace hx : (if (3.0 : ℝ) ≤ rawAngleAt h d x then
          (⌊rawAngleAt h d x⌋, ⌈rawAngleAt h d x⌉, rawAngleAt h d x) else 0) ≠ 0 := hx
      show (if (2.1 : ℝ) ≤ rawAngleAt h d x then
          (⌊rawAngleAt h d x⌋, ⌈rawAngleAt h d x⌉, rawAngleAt h d x) else 0) ≠ 0
      by_cases h3 : (3.0 : ℝ) ≤ rawAngleAt h d x
      · rw [if_pos (show (2.1 : ℝ) ≤ rawAngleAt h d x by linarith)]
        intro h0
        have h5 : rawAngleAt h d x = 0 := congrArg (fun t : ℤ × ℤ × ℝ => t.2.2) h0
        linarith
      · rw [if_neg h3] at hx
        exact absurd rfl hx
  · intro x hx
    simp only [Set.mem_setOf_eq] at hx ⊢
    rcases contrib_cases h d x with hc | ⟨hvis, hc⟩
    · rw [hc] at hx
      exact absurd rfl hx
    · rw [hc]
      show ((⌊rawAngleAt h d x⌋, ⌈rawAngleAt h d x⌉, rawAngleAt h d x) : ℤ × ℤ × ℝ) ≠ 0
      intro h0
      have h5 : rawAngleAt h d x = 0 := congrArg (fun t : ℤ × ℤ × ℝ => t.2.2) h0
      linarith
  · unfold compute_sums
    dsimp only
    split_ifs with hdeg
    · simp
    · have hn := sums_nest h (h / Real.tan (θ * Real.pi / 180)) (offsets (stepOf s))
      exact ⟨hn.1, hn.2.1, hn.2.2.1, hn.2.2.2.1, hn.2.2.2.2.1, hn.2.2.2.2.2⟩

lemma sqrt_not_nonpos_of_raw {h d : ℝ} {x : ℤ} {v : ℝ} (hv : v ≠ 0)
    (hraw : rawAngleAt h d x = v) : ¬ Real.sqrt (d ^ 2 + (x : ℝ) ^ 2) ≤ 0 := by
  intro hle
  have h0 : Real.sqrt (d ^ 2 + (x : ℝ) ^ 2) = 0 :=
    le_antisymm hle (Real.sqrt_nonneg _)
  rw [rawAngleAt, h0, div_zero, Real.arctan_zero, zero_mul, zero_div] at hraw
  exact hv hraw.symm

/-- Claim C9: Band membership is inclusive at every threshold: an observation
whose `rawAngle` is exactly `2.1°` is counted in the sums of the `≥ 2.1°` band
(but not in the `≥ 3°` band), one whose `rawAngle` is exactly `3.0°` is
counted in the sums of the `≥ 3°` band, and the same inclusive `>=` comparison
drives the render colors: red iff `rawAngle ≥ 3.0°`, orange iff
`2.1° ≤ rawAngle < 3.0°`, blue iff `rawAngle < 2.1°`. -/
theorem inclusive_thresholds (h d : ℝ) (x : ℤ) (raw : ℝ) :
    (rawAngleAt h d x = 21 / 10 →
      (contrib h d x).2.1 = (2, 3, 21 / 10) ∧ (contrib h d x).1 = 0) ∧
    (rawAngleAt h d x = 3 → (contrib h d x).1 = (3, 3, 3)) ∧
    (towerColor raw = TColor.red ↔ 3 ≤ raw) ∧
    (towerColor raw = TColor.orange ↔ 2.1 ≤ raw ∧ raw < 3) ∧
    (towerColor raw = TColor.blue ↔ raw < 2.1) := by
  refine ⟨?_, ?_, ?_, ?_, ?_⟩
  · intro hraw
    have hsq := sqrt_not_nonpos_of_raw (by norm_num : (21 / 10 : ℝ) ≠ 0) hraw
    unfold contrib
    rw [if_neg hsq, if_neg (by rw [hraw]; norm_num), hraw]
    rw [if_neg (by norm_num : ¬ (3.0 : ℝ) ≤ 21 / 10),
      if_pos (by norm_num : (2.1 : ℝ) ≤ 21 / 10)]
    constructor
    · show ((⌊(21 / 10 : ℝ)⌋, ⌈(21 / 10 : ℝ)⌉, (21 / 10 : ℝ)) : ℤ × ℤ × ℝ) = (2, 3, 21 / 10)
      rw [show (⌊(21 / 10 : ℝ)⌋ : ℤ) = 2 by norm_num,
        show (⌈(21 / 10 : ℝ)⌉ : ℤ) = 3 by rw [Int.ceil_eq_iff] <;> norm_num]
    · rfl
  · intro hraw
    have hsq := sqrt_not_nonpos_of_raw (by norm_num : (3 : ℝ) ≠ 0) hraw
    unfold contrib
    rw [if_neg hsq, if_neg (by rw [hraw]; norm_num), hraw]
    rw [if_pos (by norm_num : (3.0 : ℝ) ≤ 3)]
    show ((⌊(3 : ℝ)⌋, ⌈(3 : ℝ)⌉, (3 : ℝ)) : ℤ × ℤ × ℝ) = (3, 3, 3)
    rw [show (⌊(3 : ℝ)⌋ : ℤ) = 3 by norm_num,
      show (⌈(3 : ℝ)⌉ : ℤ) = 3 by rw [Int.ceil_eq_iff] <;> norm_num]
  · unfold towerColor
    split_ifs with h1 h2 <;> simp_all <;> linarith
  · unfold towerColor
    split_ifs with h1 h2 <;> simp_all
    · intro h21
      linarith
    · linarith
  · unfold towerColor
    split_ifs with h1 h2 <;> simp_all <;> linarith

/-- Witness for `inclusive_thresholds`: a concrete geometry whose central
observation has `rawAngle` exactly `2.1°`, counted in the `≥ 2.1°` band. -/
theorem inclusive_thresholds_witness :
    rawAngleAt (Real.tan (21 / 10 * Real.pi / 180)) 1 0 = 21 / 10 ∧
    (contrib (Real.tan (21 / 10 * Real.pi / 180)) 1 0).2.1 = (2, 3, 21 / 10) ∧
    towerColor 3 = TColor.red := by
  have hpi := Real.pi_pos
  have hA2 : 21 / 10 * Real.pi / 180 < Real.pi / 2 := by linarith
  have hraw : rawAngleAt (Real.tan (21 / 10 * Real.pi / 180)) 1 0 = 21 / 10 := by
    unfold rawAngleAt
    rw [show ((0 : ℤ) : ℝ) = 0 by norm_num]
    rw [show ((1 : ℝ) ^ 2 + (0 : ℝ) ^ 2) = 1 by norm_num]
    rw [Real.sqrt_one, div_one]
    rw [Real.arctan_tan (by linarith) hA2]
    field_simp
    ring
  exact ⟨hraw, ((inclusive_thresholds (Real.tan (21 / 10 * Real.pi / 180)) 1 0 3).1 hraw).1,
    ((inclusive_thresholds (Real.tan (21 / 10 * Real.pi / 180)) 1 0 3).2.2.1).mpr
      (by norm_num)⟩

/-- Claim C7, counterexample: For `span = 2 + 1/20000 = 2.00005` the computed
step is `int(span + 0.9999) = int(2.99995) = 2`, while the exact ceiling of
the span is `3`: the step is not the span rounded up to the next integer. -/
theorem step_not_exact_ceiling :
    stepOf (2 + 1 / 20000) = 2 ∧ (⌈(2 + 1 / 20000 : ℝ)⌉ : ℤ) = 3 := by
  have h1 : pyInt (2 + 1 / 20000 : ℝ) = 2 := by
    rw [pyInt_of_nonneg (by norm_num), Int.floor_eq_iff]
    norm_num
  have h2 : pyInt ((2 + 1 / 20000 : ℝ) + 0.9999) = 2 := by
    rw [pyInt_of_nonneg (by norm_num), Int.floor_eq_iff]
    norm_num
  constructor
  · unfold stepOf
    dsimp only
    rw [if_neg (show ¬ ((2 + 1 / 20000 : ℝ) = (pyInt (2 + 1 / 20000 : ℝ) : ℝ)) by
      rw [h1]; norm_num)]
    rw [h2]
    norm_num
  · rw [Int.ceil_eq_iff]
    norm_num

/-- Claim C7, amended: For every `span > 0` the step equals the span when the
span is an integer; otherwise it equals `trunc(span + 0.9999)`, which is the
exact ceiling of the span whenever the fractional part of the span is at
least `10⁻⁴`, but only the floor of the span when the fractional part is
positive and below `10⁻⁴`; in all cases the result is floored at a minimum
of `1`. -/
theorem stepOf_exact (span : ℝ) (hs : 0 < span) :
    stepOf span = max 1 (if span = (pyInt span : ℝ) then pyInt span
      else if 1 / 10000 ≤ Int.fract span then ⌈span⌉ else ⌊span⌋) := by
  unfold stepOf
  dsimp only
  rw [show ∀ s : ℤ, (if s < 1 then 1 else s) = max 1 s from fun s => by
    split_ifs <;> omega]
  congr 1
  by_cases hint : span = (pyInt span : ℝ)
  · rw [if_pos hint, if_pos hint]
  · rw [if_neg hint, if_neg hint]
    have hfl : pyInt span = ⌊span⌋ := pyInt_of_nonneg hs.le
    have hfr0 : 0 ≤ Int.fract span := Int.fract_nonneg span
    have hfr1 : Int.fract span < 1 := Int.fract_lt_one span
    have hfrne : Int.fract span ≠ 0 := by
      intro h0
      apply hint
      rw [hfl]
      have := Int.floor_add_fract span
      rw [h0, add_zero] at this
      exact this.symm
    have hsplit : span + 0.9999 = (⌊span⌋ : ℝ) + (Int.fract span + 0.9999) := by
      have := Int.floor_add_fract span
      linarith
    rw [pyInt_of_nonneg (by linarith), hsplit, Int.floor_int_add]
    by_cases hef : (1 / 10000 : ℝ) ≤ Int.fract span
    · rw [if_pos hef]
      have h1 : ⌊Int.fract span + 0.9999⌋ = 1 := by
        rw [Int.floor_eq_iff]
        constructor
        · push_cast
          linarith
        · push_cast
          linarith
      rw [h1]
      have hceil : (⌈span⌉ : ℝ) = span + 1 - Int.fract span :=
        Int.ceil_eq_add_one_sub_fract hfrne
      have hflval : (⌊span⌋ : ℝ) = span - Int.fract span := by
        have := Int.floor_add_fract span
        linarith
      have : (⌈span⌉ : ℝ) = (⌊span⌋ : ℝ) + 1 := by
        rw [hceil, hflval]
        ring
      exact_mod_cast this.symm
    · rw [if_neg hef]
      have h1 : ⌊Int.fract span + 0.9999⌋ = 0 := by
        rw [Int.floor_eq_iff]
        constructor
        · push_cast
          linarith
        · push_cast
          push_neg at hef
          linarith
      rw [h1, add_zero]

/-- Witness for `stepOf_exact` at the concrete span `2.5`. -/
theorem stepOf_exact_witness :
    (0 : ℝ) < 2.5 ∧
    stepOf 2.5 = max 1 (if (2.5 : ℝ) = (pyInt 2.5 : ℝ) then pyInt 2.5
      else if 1 / 10000 ≤ Int.fract (2.5 : ℝ) then ⌈(2.5 : ℝ)⌉ else ⌊(2.5 : ℝ)⌋) :=
  ⟨by norm_num, stepOf_exact 2.5 (by norm_num)⟩

lemma small_angle_lt_pi_div_two : (1 / 20 : ℝ) * Real.pi / 180 < Real.pi / 2 := by
  have hpi := Real.pi_pos
  linarith

lemma small_angle_pos : (0 : ℝ) < (1 / 20 : ℝ) * Real.pi / 180 := by
  have hpi := Real.pi_pos
  linarith

lemma tan_small_pos : 0 < Real.tan ((1 / 20 : ℝ) * Real.pi / 180) :=
  Real.tan_pos_of_pos_of_lt_pi_div_two small_angle_pos small_angle_lt_pi_div_two

/-- The angle `0.05°` is not numerically degenerate: its tangent is well
above the `1e-12` cutoff. -/
lemma nondegen_small : ¬ |Real.tan ((1 / 20 : ℝ) * Real.pi / 180)| < 1e-12 := by
  have hpi3 := Real.pi_gt_three
  have h3 : (1 / 20 : ℝ) * Real.pi / 180 < Real.tan ((1 / 20 : ℝ) * Real.pi / 180) :=
    Real.lt_tan small_angle_pos small_angle_lt_pi_div_two
  rw [abs_of_pos tan_small_pos]
  intro hlt
  nlinarith

/-- At `height = 1` and `angle = 0.05°`, the raw angle of every sampled offset is
below the `0.1°` visibility cutoff, so every loop iteration is skipped. -/
lemma contrib_small (x : ℤ) :
    contrib 1 (1 / Real.tan ((1 / 20 : ℝ) * Real.pi / 180)) x = 0 := by
  have hpi := Real.pi_pos
  set d : ℝ := 1 / Real.tan ((1 / 20 : ℝ) * Real.pi / 180) with hd_def
  have hd : 0 < d := by
    rw [hd_def]
    exact one_div_pos.mpr tan_small_pos
  have hrle : d ≤ Real.sqrt (d ^ 2 + (x : ℝ) ^ 2) := by
    have h := Real.sqrt_le_sqrt
      (show d ^ 2 ≤ d ^ 2 + (x : ℝ) ^ 2 by nlinarith [sq_nonneg ((x : ℝ))])
    rwa [Real.sqrt_sq hd.le] at h
  have hraw : rawAngleAt 1 d x < 0.1 := by
    unfold rawAngleAt
    have hinv : 1 / Real.sqrt (d ^ 2 + (x : ℝ) ^ 2) ≤ 1 / d :=
      one_div_le_one_div_of_le hd hrle
    have h1d : 1 / d = Real.tan ((1 / 20 : ℝ) * Real.pi / 180) := by
      rw [hd_def, one_div_one_div]
    have harc : Real.arctan (1 / Real.sqrt (d ^ 2 + (x : ℝ) ^ 2)) ≤
        (1 / 20 : ℝ) * Real.pi / 180 := by
      have := Real.arctan_strictMono.monotone hinv
      rwa [h1d, Real.arctan_tan (by linarith [small_angle_pos]) small_angle_lt_pi_div_two]
        at this
    have hmul : Real.arctan (1 / Real.sqrt (d ^ 2 + (x : ℝ) ^ 2)) * 180 / Real.pi ≤
        ((1 / 20 : ℝ) * Real.pi / 180) * 180 / Real.pi := by
      gcongr
    have hval : ((1 / 20 : ℝ) * Real.pi / 180) * 180 / Real.pi = 1 / 20 := by
      field_simp
      ring
    rw [hval] at hmul
    calc Real.arctan (1 / Real.sqrt (d ^ 2 + (x : ℝ) ^ 2)) * 180 / Real.pi
        ≤ 1 / 20 := hmul
      _ < 0.1 := by norm_num
  unfold contrib
  by_cases hc : Real.sqrt (d ^ 2 + (x : ℝ) ^ 2) ≤ 0
  · rw [if_pos hc]
  · rw [if_neg hc, if_pos hraw]

/-- Claim C1, counterexample: The degenerate input `angle = 0°` and the
valid but fully-filtered input `angle = 0.05°` (with `height = 1`,
`span = 100`) produce the exact same result from `compute_sums` — all-zero
sums — so a caller cannot tell degenerate geometry apart from "valid
geometry, zero towers qualified". -/
theorem degenerate_not_distinguishable :
    compute_sums 1 100 0 = compute_sums 1 100 (1 / 20) ∧
    |Real.tan ((0 : ℝ) * Real.pi / 180)| < 1e-12 ∧
    ¬ |Real.tan ((1 / 20 : ℝ) * Real.pi / 180)| < 1e-12 := by
  have hdeg : |Real.tan ((0 : ℝ) * Real.pi / 180)| < 1e-12 := by
    norm_num [Real.tan_zero]
  refine ⟨?_, hdeg, nondegen_small⟩
  have e1 : compute_sums 1 100 0 = 0 := by
    unfold compute_sums
    rw [if_pos hdeg]
  have e2 : compute_sums 1 100 (1 / 20) = 0 := by
    unfold compute_sums
    rw [if_neg nondegen_small]
    apply List.sum_eq_zero
    intro y hy
    obtain ⟨x, _, hxy⟩ := List.mem_map.mp hy
    rw [← hxy]
    exact contrib_small x
  rw [e1, e2]

/-- Claim C1, amended: When the tangent of the reference angle is numerically zero
(`|tan| < 1e-12`), `compute_sums` returns the plain zeroed sums
`((0,0,0.0),(0,0,0.0),(0,0,0.0))` — exactly the value produced for valid
geometry in which every sampled offset is discarded by the `0.1°`
visibility filter, so the degenerate outcome is not distinguishable from
"valid geometry, zero towers qualified". -/
theorem degenerate_zeroed_sums (h s θ h2 s2 θ2 : ℝ)
    (hdeg : |Real.tan (θ * Real.pi / 180)| < 1e-12)
    (hnd : ¬ |Real.tan (θ2 * Real.pi / 180)| < 1e-12)
    (hskip : ∀ x ∈ offsets (stepOf s2),
        contrib h2 (h2 / Real.tan (θ2 * Real.pi / 180)) x = 0) :
    compute_sums h s θ = ((0, 0, 0), (0, 0, 0), (0, 0, 0)) ∧
    compute_sums h s θ = compute_sums h2 s2 θ2 := by
  have e1 : compute_sums h s θ = 0 := by
    unfold compute_sums
    rw [if_pos hdeg]
  have e2 : compute_sums h2 s2 θ2 = 0 := by
    unfold compute_sums
    rw [if_neg hnd]
    apply List.sum_eq_zero
    intro y hy
    obtain ⟨x, hx, hxy⟩ := List.mem_map.mp hy
    rw [← hxy]
    exact hskip x hx
  exact ⟨e1, by rw [e1, e2]⟩

/-- Witness for `degenerate_zeroed_sums`: the degenerate angle `0°` against
the valid, fully-filtered angle `0.05°`. -/
theorem degenerate_zeroed_sums_witness :
    (|Real.tan ((0 : ℝ) * Real.pi / 180)| < 1e-12 ∧
     ¬ |Real.tan ((1 / 20 : ℝ) * Real.pi / 180)| < 1e-12) ∧
    (compute_sums 1 100 0 = ((0, 0, 0), (0, 0, 0), (0, 0, 0)) ∧
     compute_sums 1 100 0 = compute_sums 1 100 (1 / 20)) := by
  have hdeg : |Real.tan ((0 : ℝ) * Real.pi / 180)| < 1e-12 := by
    norm_num [Real.tan_zero]
  exact ⟨⟨hdeg, nondegen_small⟩,
    degenerate_zeroed_sums 1 100 0 1 100 (1 / 20) hdeg nondegen_small
      (fun x _ => contrib_small x)⟩

/-- Claim C8: Every point in the `towers_data` list produced by
`visualize_towers` comes from a retained offset `x`; its horizontal
position is `95°` when `x = 0` and
`clamp(95 + sign(x)·degrees(atan(|x|/d)), 0°, 180°)` when `x ≠ 0`; its bar
height is `min(rawAngle, 40°)`; consequently every horizontal position lies
in `[0°, 180°]` and every bar height is at most `40°`. -/
theorem render_points (h s θ : ℝ) (l : List (ℝ × ℝ × TColor)) (p : ℝ × ℝ × TColor)
    (hl : towers_data h s θ = some l) (hp : p ∈ l) :
    (0 ≤ p.1 ∧ p.1 ≤ 180 ∧ p.2.1 ≤ 40) ∧
    ∃ x ∈ offsets (stepOf s),
      towerPoint h (h / Real.tan (θ * Real.pi / 180)) x = some p ∧
      p.2.1 = min (rawAngleAt h (h / Real.tan (θ * Real.pi / 180)) x) 40 ∧
      (x = 0 → p.1 = 95) ∧
      (x ≠ 0 → p.1 = max 0 (min 180
        (95 + (Int.sign x : ℝ) *
          (Real.arctan (|(x : ℝ)| / (h / Real.tan (θ * Real.pi / 180))) * 180
            / Real.pi)))) := by
  unfold towers_data at hl
  dsimp only at hl
  by_cases hdeg : |Real.tan (θ * Real.pi / 180)| < 1e-12
  · rw [if_pos hdeg] at hl
    exact absurd hl (by simp)
  · rw [if_neg hdeg] at hl
    have hl' : (offsets (stepOf s)).filterMap
        (towerPoint h (h / Real.tan (θ * Real.pi / 180))) = l :=
      Option.some_injective _ hl
    subst hl'
    obtain ⟨x, hx, hfx⟩ := List.mem_filterMap.mp hp
    have hfx' := hfx
    unfold towerPoint at hfx'
    by_cases h1 : Real.sqrt ((h / Real.tan (θ * Real.pi / 180)) ^ 2 + (x : ℝ) ^ 2) ≤ 0
    · rw [if_pos h1] at hfx'
      exact absurd hfx' (by simp)
    · rw [if_neg h1] at hfx'
      by_cases h2 : rawAngleAt h (h / Real.tan (θ * Real.pi / 180)) x < 0.1
      · rw [if_pos h2] at hfx'
        exact absurd hfx' (by simp)
      · rw [if_neg h2] at hfx'
        dsimp only at hfx'
        have hpe : p = ((if x = 0 then (95.0 : ℝ)
            else max 0 (min 180
              (if 0 < x then
                95 + Real.arctan (|(x : ℝ)| / (h / Real.tan (θ * Real.pi / 180))) * 180
                  / Real.pi
               else
                95 - Real.arctan (|(x : ℝ)| / (h / Real.tan (θ * Real.pi / 180))) * 180
                  / Real.pi))),
            min (rawAngleAt h (h / Real.tan (θ * Real.pi / 180)) x) 40.0,
            towerColor (rawAngleAt h (h / Real.tan (θ * Real.pi / 180)) x)) :=
          (Option.some_injective _ hfx').symm
        have hphi : (0 : ℝ) ≤ p.1 ∧ p.1 ≤ 180 := by
          rw [hpe]
          by_cases hx0 : x = 0
          · rw [if_pos hx0]
            norm_num
          · rw [if_neg hx0]
            constructor
            · exact le_max_left 0 _
            · exact max_le (by norm_num) (min_le_left 180 _)
        refine ⟨⟨hphi.1, hphi.2, ?_⟩, x, hx, hfx, ?_, ?_, ?_⟩
        · rw [hpe]
          exact le_trans (min_le_right _ _) (by norm_num)
        · rw [hpe]
          norm_num
        · intro hx0
          rw [hpe, if_pos hx0]
          norm_num
        · intro hx0
          rw [hpe, if_neg hx0]
          by_cases hxp : 0 < x
          · rw [if_pos hxp, Int.sign_eq_one_iff_pos.mpr hxp]
            norm_num
          · have hxn : x < 0 := by omega
            rw [if_neg hxp, Int.sign_eq_neg_one_iff_neg.mpr hxn]
            push_cast
            ring_nf

/-- The concrete render list for `height = 50`, `span = 100`, `angle = 45°`. -/
noncomputable def towersData45 : List (ℝ × ℝ × TColor) :=
  (offsets (stepOf 100)).filterMap (towerPoint 50 (50 / Real.tan (45 * Real.pi / 180)))

/-- Witness for `render_points`: at the defaults `height = 50`, `span = 100`,
`angle = 45°` the central offset yields the render point
`(95°, 40°, red)`, whose position and height satisfy the bounds. -/
theorem render_points_witness :
    towers_data 50 100 45 = some towersData45 ∧
    ((95 : ℝ), (40 : ℝ), TColor.red) ∈ towersData45 ∧
    ((0 : ℝ) ≤ 95 ∧ (95 : ℝ) ≤ 180 ∧ (40 : ℝ) ≤ 40) := by
  have h45 : Real.tan ((45 : ℝ) * Real.pi / 180) = 1 := by
    rw [show (45 : ℝ) * Real.pi / 180 = Real.pi / 4 by ring, Real.tan_pi_div_four]
  have hnd : ¬ |Real.tan ((45 : ℝ) * Real.pi / 180)| < 1e-12 := by
    rw [h45]
    norm_num
  have hl : towers_data 50 100 45 = some towersData45 := by
    unfold towers_data towersData45
    rw [if_neg hnd]
  have hd : (50 : ℝ) / Real.tan ((45 : ℝ) * Real.pi / 180) = 50 := by
    rw [h45]
    norm_num
  have hraw : rawAngleAt 50 (50 / Real.tan ((45 : ℝ) * Real.pi / 180)) 0 = 45 := by
    unfold rawAngleAt
    rw [hd, show ((0 : ℤ) : ℝ) = 0 by norm_num,
      show ((50 : ℝ) ^ 2 + (0 : ℝ) ^ 2) = 50 ^ 2 by ring,
      Real.sqrt_sq (by norm_num : (0 : ℝ) ≤ 50),
      show (50 : ℝ) / 50 = 1 by norm_num, Real.arctan_one]
    field_simp
    ring
  have hpt : towerPoint 50 (50 / Real.tan ((45 : ℝ) * Real.pi / 180)) 0 =
      some (95, 40, TColor.red) := by
    unfold towerPoint
    rw [if_neg (by
      rw [hd, show ((0 : ℤ) : ℝ) = 0 by norm_num,
        show ((50 : ℝ) ^ 2 + (0 : ℝ) ^ 2) = 50 ^ 2 by ring,
        Real.sqrt_sq (by norm_num : (0 : ℝ) ≤ 50)]
      norm_num)]
    rw [if_neg (by rw [hraw]; norm_num)]
    dsimp only
    rw [if_pos rfl, hraw]
    rw [min_eq_right (by norm_num : (40.0 : ℝ) ≤ 45)]
    rw [show towerColor 45 = TColor.red by
      unfold towerColor
      rw [if_pos (by norm_num : (3.0 : ℝ) ≤ 45)]]
    norm_num
  have hmem : ((95 : ℝ), (40 : ℝ), TColor.red) ∈ towersData45 := by
    unfold towersData45
    refine List.mem_filterMap.mpr ⟨0, ?_, hpt⟩
    rw [mem_offsets, stepOf_hundred]
    exact ⟨40, by decide, by norm_num⟩
  exact ⟨hl, hmem,
    (render_points 50 100 45 towersData45 (95, 40, TColor.red) hl hmem).1⟩
